import Mathlib

/-!
Verification of the agent-side deployment execution pipeline of the
void-operations/gate repository (`src/agent/Program.cs`).

The C# agent is shallowly embedded: network and filesystem effects are
abstracted into an explicit environment (`Env`) and an explicit staging
directory (a list of `(file name, byte size)` pairs); every pure
computation (URL parsing, asset filtering and selection, verification,
the deployment loop with its exception-based fail-fast control flow)
is translated function by function from the source.  String operations
are modelled on character lists; `ToLower` is modelled with
`Char.toLower` (the asset keywords and extensions involved are ASCII).
-/

namespace VoidGate

/-- Lower-cased character list of a string (model of C# `String.ToLower`
restricted to per-character lowering, which agrees on ASCII). -/
def lowerChars (s : String) : List Char :=
  s.data.map Char.toLower

/-- Model of C# `string.Contains` (ordinal substring test) on char lists:
`containsSub needle hay` holds when `needle` occurs contiguously in `hay`. -/
def containsSub (needle : List Char) : List Char → Bool
  | [] => needle.isEmpty
  | c :: cs => needle.isPrefixOf (c :: cs) || containsSub needle cs

/-- Model of C# `string.EndsWith(suffix, StringComparison.OrdinalIgnoreCase)`:
both sides are lowered per character and compared as a suffix. -/
def endsWithCI (s sfx : String) : Bool :=
  (lowerChars sfx).isSuffixOf (lowerChars s)

/-- `GitHubReleaseAsset` DTO of the agent (Program.cs, second variant):
`name`, `browser_download_url`, `content_type`, `size` (C# `long`;
GitHub sizes are non-negative and the code only compares them, so `Int`). -/
structure GitHubReleaseAsset where
  name : String
  browser_download_url : String
  content_type : String
  size : Int
deriving DecidableEq, Repr

/-- `GitHubReleaseResponse` DTO: the artifact host's release-by-tag body. -/
structure GitHubReleaseResponse where
  tag_name : String
  name : String
  assets : List GitHubReleaseAsset
deriving DecidableEq, Repr

/-- `ReleaseResponse` DTO: release metadata fetched from the Master. -/
structure ReleaseResponse where
  id : String
  tag_name : String
  name : String
  version : String
  download_url : String
  description : String
deriving DecidableEq, Repr

/-- `DeploymentResponse` DTO: the polled deployment.  `release_ids` and
`release_tags` are nullable lists in C#, hence `Option`. -/
structure DeploymentResponse where
  id : String
  release_ids : Option (List String)
  release_tags : Option (List String)
deriving DecidableEq, Repr

/-- Outcome of the artifact host's release-by-tag endpoint:
a non-success HTTP status, or a success status whose JSON body
deserializes to `none` (JSON null) or to a `GitHubReleaseResponse`. -/
inductive GhResult where
  | httpError : GhResult
  | ok : Option GitHubReleaseResponse → GhResult
deriving DecidableEq, Repr

/-- Abstraction of the agent's ambient state and external collaborators:
the global `agentPlatform`, the Master's release endpoint
(`FetchReleaseDetails`, `none` on non-success or exception), the artifact
host's release-by-tag endpoint, and the asset binary fetch
(`downloadOk` = HTTP success, `downloadedSize` = byte count written). -/
structure Env where
  platform : String
  fetchRelease : String → Option ReleaseResponse
  ghApi : String → String → String → GhResult
  downloadOk : String → Bool
  downloadedSize : String → Nat

/-- `sourceCodeKeywords` from `DownloadReleaseArtifacts`. -/
def sourceCodeKeywords : List String :=
  ["source", "src", "sourcecode"]

/-- The asset filter of `DownloadReleaseArtifacts`: an asset is kept
unless its lower-cased name contains one of the source-code keywords. -/
def isExecutableAsset (a : GitHubReleaseAsset) : Bool :=
  !(sourceCodeKeywords.any fun kw => containsSub kw.data (lowerChars a.name))

/-- `executableAssets` computation of `DownloadReleaseArtifacts`. -/
def filterExecutableAssets (assets : List GitHubReleaseAsset) : List GitHubReleaseAsset :=
  assets.filter isExecutableAsset

/-- Windows platform-preferred extensions (`DownloadReleaseArtifacts`). -/
def windowsExtensions : List String := [".exe", ".msi", ".zip"]

/-- macOS platform-preferred extensions (`DownloadReleaseArtifacts`). -/
def macosExtensions : List String := [".dmg", ".pkg", ".app.zip", ".zip"]

/-- Fallback (linux-named) platform-preferred extensions
(`DownloadReleaseArtifacts`): the `else` branch of the conditional. -/
def linuxExtensions : List String := [".deb", ".rpm", ".tar.gz", ".zip"]

/-- `platformExtensions` conditional of `DownloadReleaseArtifacts`:
windows and macos are matched by name; every other platform string
falls through to the linux-named list. -/
def platformExtensions (platform : String) : List String :=
  if platform = "windows" then windowsExtensions
  else if platform = "macos" then macosExtensions
  else linuxExtensions

/-- `asset.name.ToLower().EndsWith(ext.ToLower())` test. -/
def assetMatchesExt (a : GitHubReleaseAsset) (ext : String) : Bool :=
  endsWithCI a.name ext

/-- `platformExtensions.Any(ext => ...EndsWith...)` predicate on one asset. -/
def assetMatchesPlatform (exts : List String) (a : GitHubReleaseAsset) : Bool :=
  exts.any (assetMatchesExt a)

/-- `executableAssets.FirstOrDefault(asset => platformExtensions.Any(...))`:
the first asset, in list order, whose name ends with any preferred extension. -/
def selectPlatformAsset (exts : List String) (assets : List GitHubReleaseAsset) :
    Option GitHubReleaseAsset :=
  assets.find? (assetMatchesPlatform exts)

/-- One insertion step of a stable descending sort by `size`, modelling
LINQ's stable `OrderByDescending(a => a.size)`: an element is placed
before the first element whose key is not larger, so elements with equal
keys keep their original relative order. -/
def insertBySizeDesc (a : GitHubReleaseAsset) : List GitHubReleaseAsset → List GitHubReleaseAsset
  | [] => [a]
  | b :: bs => if b.size ≤ a.size then a :: b :: bs else b :: insertBySizeDesc a bs

/-- Stable descending sort by `size` (model of `OrderByDescending(a => a.size)`). -/
def sortBySizeDesc (l : List GitHubReleaseAsset) : List GitHubReleaseAsset :=
  l.foldr insertBySizeDesc []

/-- `executableAssets.OrderByDescending(a => a.size).First()` (guarded by a
non-emptiness check in the source, hence `Option` via `head?`). -/
def selectLargestAsset (l : List GitHubReleaseAsset) : Option GitHubReleaseAsset :=
  (sortBySizeDesc l).head?

/-- The full asset selection of `DownloadReleaseArtifacts`: first asset
matching any platform-preferred extension, else the largest one. -/
def selectAsset (platform : String) (assets : List GitHubReleaseAsset) :
    Option GitHubReleaseAsset :=
  match selectPlatformAsset (platformExtensions platform) assets with
  | some a => some a
  | none => selectLargestAsset assets

/-- Model of .NET `Path.GetExtension` on an asset file name (no directory
separators): the substring from the last `'.'` on, or `""` when there is
no `'.'` or the name ends with `'.'`. -/
def pathGetExtension (name : String) : String :=
  let afterDot := name.data.reverse.takeWhile (fun c => c ≠ '.')
  if afterDot.length = name.data.length then ""
  else if afterDot.isEmpty then ""
  else ('.' :: afterDot.reverse).asString

/-- Extension inference from `content_type` in `DownloadReleaseArtifacts`
(ordinal, case-sensitive `Contains`). -/
def inferExtensionFromContentType (ct : String) : String :=
  if containsSub "zip".data ct.data then ".zip"
  else if containsSub "dmg".data ct.data then ".dmg"
  else if containsSub "exe".data ct.data then ".exe"
  else ""

/-- `fileExtension` computation of `DownloadReleaseArtifacts`. -/
def assetFileExtension (a : GitHubReleaseAsset) : String :=
  let e := pathGetExtension a.name
  if e = "" then inferExtensionFromContentType a.content_type else e

/-- Model of `download_url.TrimEnd('/')`. -/
def trimTrailingSlashes (s : String) : String :=
  ((s.data.reverse.dropWhile (fun c => c = '/')).reverse).asString

/-- The literal part of the URL regex. -/
def githubHost : List Char :=
  "https://github.com/".data

/-- One anchored attempt of the regex
`https://github\.com/([^/]+)/([^/]+)` at the head of `cs`:
the host literal, a non-empty slash-free owner group (greedy), a `'/'`,
and a non-empty slash-free repo group (greedy). -/
def matchGithubAt (cs : List Char) : Option (String × String) :=
  if githubHost.isPrefixOf cs then
    let rest := cs.drop githubHost.length
    let owner := rest.takeWhile (fun c => c ≠ '/')
    if owner.isEmpty then none
    else
      match rest.drop owner.length with
      | [] => none
      | d :: rest2 =>
        if d = '/' then
          let repo := rest2.takeWhile (fun c => c ≠ '/')
          if repo.isEmpty then none else some (owner.asString, repo.asString)
        else none
  else none

/-- The regex search (`Regex.Match` scans start positions left to right). -/
def searchGithub : List Char → Option (String × String)
  | [] => none
  | c :: cs =>
    match matchGithubAt (c :: cs) with
    | some r => some r
    | none => searchGithub cs

/-- The owner/repo extraction of `DownloadReleaseArtifacts`:
trim trailing slashes, then search for the pattern. -/
def parseGitHubUrl (url : String) : Option (String × String) :=
  searchGithub (trimTrailingSlashes url).data

/-- The staging (downloads) directory: file name to byte size. -/
def lookupStaging (st : List (String × Nat)) (name : String) : Option Nat :=
  (st.find? fun e => e.1 = name).map (·.2)

/-- Writing a file with `FileMode.Create`: overwrite an existing entry of
the same name, otherwise append. -/
def updateStaging (st : List (String × Nat)) (name : String) (sz : Nat) :
    List (String × Nat) :=
  if st.any (fun e => e.1 = name) then
    st.map (fun e => if e.1 = name then (name, sz) else e)
  else st ++ [(name, sz)]

/-- The file names present in the staging directory. -/
def stagingNames (st : List (String × Nat)) : List String :=
  st.map (·.1)

/-- Result of `DownloadReleaseArtifacts`: the returned path (`none` models
the `catch` returning `null`), the staging directory afterwards, and the
queries issued to the artifact host's release-by-tag endpoint. -/
structure DlOutcome where
  path : Option String
  staging : List (String × Nat)
  ghQueries : List (String × String × String)
deriving DecidableEq, Repr

/-- `DownloadReleaseArtifacts(release, tag)` translated step by step:
empty-URL and empty-tag guards, regex parse, host fetch, null/empty-assets
guard, source-archive filtering, selection, binary download, file save
under `{repo}-{tag}{extension}`.  Any thrown exception is caught by the
source and turned into a `null` return, hence `path = none` on every
failure path. -/
def DownloadReleaseArtifacts (env : Env) (release : ReleaseResponse) (tag : String)
    (st : List (String × Nat)) : DlOutcome :=
  if release.download_url = "" then ⟨none, st, []⟩
  else if tag = "" then ⟨none, st, []⟩
  else
    match parseGitHubUrl release.download_url with
    | none => ⟨none, st, []⟩
    | some (owner, repo) =>
      match env.ghApi owner repo tag with
      | GhResult.httpError => ⟨none, st, [(owner, repo, tag)]⟩
      | GhResult.ok none => ⟨none, st, [(owner, repo, tag)]⟩
      | GhResult.ok (some gh) =>
        if gh.assets.isEmpty then ⟨none, st, [(owner, repo, tag)]⟩
        else
          let executableAssets := filterExecutableAssets gh.assets
          if executableAssets.isEmpty then ⟨none, st, [(owner, repo, tag)]⟩
          else
            match selectAsset env.platform executableAssets with
            | none => ⟨none, st, [(owner, repo, tag)]⟩
            | some asset =>
              if env.downloadOk asset.browser_download_url then
                let fileName := repo ++ "-" ++ tag ++ assetFileExtension asset
                ⟨some fileName,
                 updateStaging st fileName (env.downloadedSize asset.browser_download_url),
                 [(owner, repo, tag)]⟩
              else ⟨none, st, [(owner, repo, tag)]⟩

/-- `InstallSoftware`: returns `false` only when the downloaded file does
not exist; the `chmod` on macos/linux is attempted but its failure is
caught and merely logged, so it never affects the result. -/
def InstallSoftware (st : List (String × Nat)) (filePath : String) : Bool :=
  (lookupStaging st filePath).isSome

/-- `VerifyInstallation`: the file must exist and be non-empty; on
macos/linux that suffices; on windows the path must additionally end with
`.exe` (ordinal, case-insensitive); any other platform string passes. -/
def VerifyInstallation (platform : String) (st : List (String × Nat))
    (filePath : String) : Bool :=
  match lookupStaging st filePath with
  | none => false
  | some len =>
    if len = 0 then false
    else if platform = "macos" || platform = "linux" then true
    else if platform = "windows" then endsWithCI filePath ".exe"
    else true

/-- `tagToUse` computation of `ExecuteDeployment`: the deployment-supplied
tag when present and non-empty (C# `!string.IsNullOrEmpty`), otherwise the
release's stored `tag_name`. -/
def tagToUse (selectedTag : Option String) (dbTag : String) : String :=
  match selectedTag with
  | some t => if t = "" then dbTag else t
  | none => dbTag

/-- Outcome of processing one release inside `ExecuteDeployment`'s loop:
`error = some msg` models the thrown exception's message. -/
structure StepOutcome where
  error : Option String
  staging : List (String × Nat)
  ghQueries : List (String × String × String)
deriving DecidableEq, Repr

/-- The body of `ExecuteDeployment`'s per-release loop: fetch metadata,
choose the tag, download, install, verify, with the exception messages of
the source. -/
def processRelease (env : Env) (st : List (String × Nat)) (releaseId : String)
    (selectedTag : Option String) : StepOutcome :=
  match env.fetchRelease releaseId with
  | none => ⟨some ("Failed to fetch release details for " ++ releaseId), st, []⟩
  | some release =>
    let tag := tagToUse selectedTag release.tag_name
    let dl := DownloadReleaseArtifacts env release tag st
    match dl.path with
    | none => ⟨some ("Failed to download artifacts for " ++ releaseId), dl.staging, dl.ghQueries⟩
    | some downloadPath =>
      if !InstallSoftware dl.staging downloadPath then
        ⟨some ("Failed to install software for " ++ releaseId), dl.staging, dl.ghQueries⟩
      else if !VerifyInstallation env.platform dl.staging downloadPath then
        ⟨some ("Installation verification failed for " ++ releaseId), dl.staging, dl.ghQueries⟩
      else ⟨none, dl.staging, dl.ghQueries⟩

/-- The `(release_ids[i], release_tags selected at index i)` pairing of
`ExecuteDeployment`'s loop: `release_tags != null && i < Count ?
release_tags[i] : null`. -/
def releasePairs (ids : List String) (tags : Option (List String)) :
    List (String × Option String) :=
  ids.enum.map fun p =>
    (p.2, match tags with
          | some ts => ts.get? p.1
          | none => none)

/-- The release loop of `ExecuteDeployment`: processes pairs in list
order; the first failure aborts the loop (the C# exception propagates to
the surrounding `catch`). -/
def runReleases (env : Env) : List (String × Option String) → List (String × Nat) →
    Option String × List (String × Nat)
  | [], st => (none, st)
  | (rid, stag) :: rest, st =>
    let r := processRelease env st rid stag
    match r.error with
    | some msg => (some msg, r.staging)
    | none => runReleases env rest r.staging

/-- Result of `ExecuteDeployment`: the completion reports sent to
`POST /api/deployments/{id}/complete` (as `(status, error_message)`
pairs, in order) and the final staging directory. -/
structure ExecOutcome where
  reports : List (String × String)
  staging : List (String × Nat)
deriving DecidableEq, Repr

/-- `ExecuteDeployment` translated: the null/empty `release_ids` guard
throws `"No releases to deploy"`; otherwise the loop runs; the `catch`
reports `failed` with the exception message, the success path reports
`success` with `string.Empty`.  Exactly one report is sent either way. -/
def ExecuteDeployment (env : Env) (dep : DeploymentResponse)
    (st : List (String × Nat)) : ExecOutcome :=
  match dep.release_ids with
  | none => ⟨[("failed", "No releases to deploy")], st⟩
  | some [] => ⟨[("failed", "No releases to deploy")], st⟩
  | some ids =>
    match runReleases env (releasePairs ids dep.release_tags) st with
    | (some msg, stf) => ⟨[("failed", msg)], stf⟩
    | (none, stf) => ⟨[("success", "")], stf⟩

/-- .NET `PlatformID` values as observed by `Environment.OSVersion.Platform`. -/
inductive PlatformID where
  | win32s | win32windows | win32nt | winCE | unix | xbox | macOSX | other
deriving DecidableEq, Repr

/-- `GetPlatform` (identical in both Program.cs variants): Win32NT maps to
`"windows"`, MacOSX and Unix both map to `"macos"`, everything else to
`"unknown"`. -/
def getPlatform (p : PlatformID) : String :=
  if p = PlatformID.win32nt then "windows"
  else if p = PlatformID.macOSX || p = PlatformID.unix then "macos"
  else "unknown"

/-- First Program.cs variant, `UnregisterFromMaster`: the id used for the
DELETE call is re-derived as `$"{agentPlatform}-{agentName}"`. -/
def unregisterIdVariant1 (agentPlatform agentName : String) : String :=
  agentPlatform ++ "-" ++ agentName

/-- The mutable `agentId` global of the second Program.cs variant. -/
structure AgentState where
  agentId : String
deriving DecidableEq, Repr

/-- Second variant, `RegisterToMaster`: on a success response the returned
id is stored; on failure the stored id is left unchanged. -/
def registerVariant2 (response : Option String) (s : AgentState) : AgentState :=
  match response with
  | some rid => ⟨rid⟩
  | none => s

/-- Second variant, `CheckForDeployment`: polls
`/api/deployments/pending/{agentId}`, skipped while `agentId` is empty. -/
def pollIdVariant2 (s : AgentState) : Option String :=
  if s.agentId = "" then none else some s.agentId

/-- Second variant, `UnregisterFromMaster`: DELETEs `/api/agents/{agentId}`
with the stored id, skipped while `agentId` is empty. -/
def unregisterIdVariant2 (s : AgentState) : Option String :=
  if s.agentId = "" then none else some s.agentId

/-- Modelled from the claim's words for C2: check the platform-preferred
extensions in priority order, selecting the first asset matching the
highest-priority extension that matches anything. -/
def selectAssetSpecPriority (exts : List String) (assets : List GitHubReleaseAsset) :
    Option GitHubReleaseAsset :=
  exts.findSome? fun ext => assets.find? fun a => assetMatchesExt a ext

/-- Modelled from the claim's words for C8: after trimming trailing
slashes the URL is exactly `host/owner/repo` with the GitHub host,
a non-empty slash-free owner and a non-empty slash-free repo. -/
def specShapeGithubUrl (url : String) : Prop :=
  ∃ owner repo : List Char, owner ≠ [] ∧ repo ≠ [] ∧
    '/' ∉ owner ∧ '/' ∉ repo ∧
    (trimTrailingSlashes url).data = githubHost ++ owner ++ '/' :: repo

/-- A concrete release used to exercise the pipeline. -/
def sampleRelease : ReleaseResponse :=
  ⟨"r1", "v1", "App", "1.0", "https://github.com/acme/app", ""⟩

/-- A concrete installer asset. -/
def sampleAsset : GitHubReleaseAsset :=
  ⟨"app.dmg", "https://dl/app.dmg", "application/octet-stream", 5⟩

/-- An environment in which everything fails (Master unreachable). -/
def trivialEnv : Env :=
  ⟨"macos", fun _ => none, fun _ _ _ => GhResult.httpError, fun _ => false, fun _ => 0⟩

/-- An environment in which release `r1` deploys successfully on macos. -/
def sampleEnv : Env :=
  ⟨"macos",
   fun rid => if rid = "r1" then some sampleRelease else none,
   fun _ _ _ => GhResult.ok (some ⟨"v1", "App", [sampleAsset]⟩),
   fun _ => true,
   fun _ => 5⟩

/-- An environment in which release `r1` resolves but the artifact host
answers with a non-success status. -/
def httpErrEnv : Env :=
  ⟨"macos",
   fun rid => if rid = "r1" then some sampleRelease else none,
   fun _ _ _ => GhResult.httpError,
   fun _ => true,
   fun _ => 5⟩

/-- An environment in which release `r1` only offers a source archive. -/
def srcOnlyEnv : Env :=
  ⟨"macos",
   fun rid => if rid = "r1" then some sampleRelease else none,
   fun _ _ _ => GhResult.ok (some ⟨"v1", "App", [⟨"app-src.zip", "u", "", 7⟩]⟩),
   fun _ => true,
   fun _ => 5⟩

/-! ### General lemmas -/

/-- `find?` returning `some a` splits the list at the first match. -/
theorem find?_decomp {α : Type} (p : α → Bool) :
    ∀ (l : List α) (a : α), l.find? p = some a →
      ∃ l₁ l₂, l = l₁ ++ a :: l₂ ∧ p a = true ∧ ∀ b ∈ l₁, p b = false := by
  intro l
  induction l with
  | nil => intro a h; simp [List.find?] at h
  | cons x xs ih =>
    intro a h
    rw [List.find?] at h
    cases hx : p x with
    | true =>
      rw [hx] at h
      cases h
      exact ⟨[], xs, rfl, hx, by simp⟩
    | false =>
      rw [hx] at h
      obtain ⟨l₁, l₂, rfl, hpa, hall⟩ := ih a h
      refine ⟨x :: l₁, l₂, rfl, hpa, ?_⟩
      intro b hb
      rcases List.mem_cons.mp hb with rfl | hb
      · exact hx
      · exact hall b hb

/-- Splitting `takeWhile`/`dropWhile` at the first failing element. -/
theorem takeWhile_dropWhile_split (p : Char → Bool) :
    ∀ (l : List Char) (x : Char) (t : List Char), (∀ c ∈ l, p c = true) → p x = false →
      (l ++ x :: t).takeWhile p = l ∧ (l ++ x :: t).dropWhile p = x :: t := by
  intro l
  induction l with
  | nil =>
    intro x t _ hx
    constructor
    · simp [List.takeWhile, hx]
    · simp [List.dropWhile, hx]
  | cons c cs ih =>
    intro x t hall hx
    have hc : p c = true := hall c (by simp)
    have ih' := ih x t (fun d hd => hall d (by simp [hd])) hx
    constructor
    · simpa [List.takeWhile, hc] using ih'.1
    · simpa [List.dropWhile, hc] using ih'.2

/-- Dropping the length of `takeWhile` is `dropWhile`. -/
theorem drop_takeWhile_length (p : Char → Bool) :
    ∀ l : List Char, l.drop (l.takeWhile p).length = l.dropWhile p := by
  intro l
  induction l with
  | nil => rfl
  | cons c cs ih =>
    cases hc : p c with
    | true => simpa [List.takeWhile, List.dropWhile, hc] using ih
    | false => simp [List.takeWhile, List.dropWhile, hc]

/-- The head of the stable descending sort is the first-seen element of
maximal size. -/
theorem sortBySizeDesc_head :
    ∀ l : List GitHubReleaseAsset, l ≠ [] →
      ∃ l₁ a l₂, l = l₁ ++ a :: l₂ ∧ (∀ b ∈ l, b.size ≤ a.size) ∧
        (∀ b ∈ l₁, b.size < a.size) ∧ (sortBySizeDesc l).head? = some a := by
  intro l
  induction l with
  | nil => intro h; exact absurd rfl h
  | cons x xs ih =>
    intro _
    cases xs with
    | nil =>
      refine ⟨[], x, [], rfl, ?_, by simp, rfl⟩
      intro b hb
      rcases List.mem_cons.mp hb with rfl | hb
      · exact le_refl _
      · simp at hb
    | cons y ys =>
      obtain ⟨l₁, a, l₂, hsplit, hmax, hfirst, hhead⟩ := ih (by simp)
      have hsort : sortBySizeDesc (x :: y :: ys) = insertBySizeDesc x (sortBySizeDesc (y :: ys)) := rfl
      obtain ⟨t, ht⟩ : ∃ t, sortBySizeDesc (y :: ys) = a :: t := by
        cases hs : sortBySizeDesc (y :: ys) with
        | nil => rw [hs] at hhead; simp at hhead
        | cons z t => rw [hs] at hhead; simp at hhead; exact ⟨t, by rw [hhead]⟩
      by_cases hle : a.size ≤ x.size
      · refine ⟨[], x, y :: ys, rfl, ?_, by simp, ?_⟩
        · intro b hb
          rcases List.mem_cons.mp hb with rfl | hb
          · exact le_refl _
          · exact le_trans (hmax b (hsplit ▸ hb)) hle
        · rw [hsort, ht]
          simp [insertBySizeDesc, hle]
      · push_neg at hle
        refine ⟨x :: l₁, a, l₂, by rw [hsplit]; rfl, ?_, ?_, ?_⟩
        · intro b hb
          rcases List.mem_cons.mp hb with rfl | hb
          · exact le_of_lt hle
          · exact hmax b (hsplit ▸ hb)
        · intro b hb
          rcases List.mem_cons.mp hb with rfl | hb
          · exact hle
          · exact hfirst b hb
        · rw [hsort, ht]
          simp [insertBySizeDesc, if_neg (not_le.mpr hle)]

/-- `containsSub` agrees with contiguous-sublist membership. -/
theorem containsSub_iff (needle : List Char) :
    ∀ hay : List Char, containsSub needle hay = true ↔ needle <:+: hay := by
  intro hay
  induction hay with
  | nil =>
    simp only [containsSub, List.isEmpty_iff, List.infix_nil]
  | cons c cs ih =>
    simp only [containsSub, Bool.or_eq_true, ih, List.isPrefixOf_iff_prefix]
    exact ( List.infix_cons_iff).symm

/-! ### Claim theorems -/

/-- C5: installation verification returns true exactly when the
downloaded file exists and is non-empty and, when the platform is
windows, its path additionally ends with `.exe` case-insensitively; on
macos and linux every existing non-empty file passes, and an empty or
missing file fails on every platform. -/
theorem VerifyInstallation_iff (platform filePath : String) (st : List (String × Nat)) :
    VerifyInstallation platform st filePath = true ↔
      ∃ len, lookupStaging st filePath = some len ∧ len ≠ 0 ∧
        (platform = "windows" → lowerChars ".exe" <:+ lowerChars filePath) := by
  cases h : lookupStaging st filePath with
  | none => simp [VerifyInstallation, h]
  | some len =>
    by_cases h0 : len = 0
    · subst h0; simp [VerifyInstallation, h]
    · by_cases hw : platform = "windows"
      · subst hw
        simp [VerifyInstallation, h, h0, endsWithCI, List.isSuffixOf_iff_suffix]
      · simp [VerifyInstallation, h, h0, hw]

/-- C9: the platform string reported by `GetPlatform` is always one of
`windows`, `macos`, `unknown` and never `linux` (Unix-family systems are
reported as macos), so the linux-named preferred-extension list is used
exactly for the `unknown` platform, and branches keyed on the literal
`linux` are unreachable. -/
theorem getPlatform_never_linux :
    ∀ p : PlatformID,
      (getPlatform p = "windows" ∨ getPlatform p = "macos" ∨ getPlatform p = "unknown") ∧
      getPlatform p ≠ "linux" ∧
      getPlatform PlatformID.unix = "macos" ∧
      getPlatform PlatformID.macOSX = "macos" ∧
      (platformExtensions (getPlatform p) = linuxExtensions ↔ getPlatform p = "unknown") := by
  intro p
  cases p <;> exact ⟨by decide, by decide, by decide, by decide, by decide⟩

/-- C10: a deployment whose `release_ids` list is null or empty triggers
no release processing (the staging directory is untouched) and is
reported with exactly one completion report, `failed` with error message
`No releases to deploy`. -/
theorem ExecuteDeployment_no_releases (env : Env) (dep : DeploymentResponse)
    (st : List (String × Nat))
    (h : dep.release_ids = none ∨ dep.release_ids = some []) :
    ExecuteDeployment env dep st = ⟨[("failed", "No releases to deploy")], st⟩ := by
  unfold ExecuteDeployment
  rcases h with h | h <;> rw [h]

/-- C10 witness: a concrete deployment with null `release_ids`. -/
theorem ExecuteDeployment_no_releases_witness :
    ExecuteDeployment trivialEnv ⟨"d0", none, none⟩ [] =
      ⟨[("failed", "No releases to deploy")], []⟩ :=
  ExecuteDeployment_no_releases trivialEnv ⟨"d0", none, none⟩ [] (Or.inl rfl)

/-- C3 (code defect): the first Program.cs variant re-derives the id used
for unregistration from the agent's platform and name, so after a
registration that returned id `abc123` it unregisters `macos-host1`
instead; the second variant stores the registration-issued id and uses
exactly it for both the deployment poll and the unregister call. -/
theorem unregister_variant1_rederives_id :
    unregisterIdVariant1 "macos" "host1" = "macos-host1" ∧
    "macos-host1" ≠ "abc123" ∧
    pollIdVariant2 (registerVariant2 (some "abc123") ⟨""⟩) = some "abc123" ∧
    unregisterIdVariant2 (registerVariant2 (some "abc123") ⟨""⟩) = some "abc123" := by
  decide

/-- C2 counterexample: on windows, with assets `app.zip` then `tool.exe`,
the code selects `app.zip` (the first asset matching any preferred
extension in asset-list order), not `tool.exe` as checking the
extensions in priority order (`.exe` before `.zip`) would demand. -/
theorem selectAsset_priority_counterexample :
    selectAsset "windows" [⟨"app.zip", "u1", "", 1⟩, ⟨"tool.exe", "u2", "", 1⟩] =
      some ⟨"app.zip", "u1", "", 1⟩ ∧
    selectAssetSpecPriority (platformExtensions "windows")
        [⟨"app.zip", "u1", "", 1⟩, ⟨"tool.exe", "u2", "", 1⟩] =
      some ⟨"tool.exe", "u2", "", 1⟩ ∧
    (⟨"app.zip", "u1", "", 1⟩ : GitHubReleaseAsset) ≠ ⟨"tool.exe", "u2", "", 1⟩ := by
  decide

/-- C2 amended: when at least one remaining asset matches a
platform-preferred extension, the selected asset is the first asset in
asset-list order matching any preferred extension; which extension in
the priority list it matches is irrelevant. -/
theorem selectAsset_first_match (platform : String) (assets : List GitHubReleaseAsset)
    (h : ∃ a ∈ assets, assetMatchesPlatform (platformExtensions platform) a = true) :
    ∃ l₁ a l₂, assets = l₁ ++ a :: l₂ ∧
      assetMatchesPlatform (platformExtensions platform) a = true ∧
      (∀ b ∈ l₁, assetMatchesPlatform (platformExtensions platform) b = false) ∧
      selectAsset platform assets = some a := by
  have hs : (assets.find? (assetMatchesPlatform (platformExtensions platform))).isSome = true :=
    List.find?_isSome.mpr h
  obtain ⟨a, ha⟩ := Option.isSome_iff_exists.mp hs
  obtain ⟨l₁, l₂, hsplit, hpa, hall⟩ := find?_decomp _ assets a ha
  refine ⟨l₁, a, l₂, hsplit, hpa, hall, ?_⟩
  unfold selectAsset selectPlatformAsset
  rw [ha]

/-- C2 amended, witness: the counterexample input has a matching asset,
and the theorem yields its leftmost-match decomposition. -/
theorem selectAsset_first_match_witness :
    ∃ l₁ a l₂,
      [(⟨"app.zip", "u1", "", 1⟩ : GitHubReleaseAsset), ⟨"tool.exe", "u2", "", 1⟩] =
        l₁ ++ a :: l₂ ∧
      assetMatchesPlatform (platformExtensions "windows") a = true ∧
      (∀ b ∈ l₁, assetMatchesPlatform (platformExtensions "windows") b = false) ∧
      selectAsset "windows" [⟨"app.zip", "u1", "", 1⟩, ⟨"tool.exe", "u2", "", 1⟩] = some a :=
  selectAsset_first_match "windows" [⟨"app.zip", "u1", "", 1⟩, ⟨"tool.exe", "u2", "", 1⟩]
    ⟨⟨"app.zip", "u1", "", 1⟩, by decide, by decide⟩

/-- C6: when no remaining candidate matches a platform-preferred
extension, the code selects the candidate with the largest byte size,
and among several candidates of the largest size the first-seen one. -/
theorem selectAsset_largest (platform : String) (assets : List GitHubReleaseAsset)
    (hne : assets ≠ [])
    (hnone : ∀ a ∈ assets, assetMatchesPlatform (platformExtensions platform) a = false) :
    ∃ l₁ a l₂, assets = l₁ ++ a :: l₂ ∧
      (∀ b ∈ assets, b.size ≤ a.size) ∧
      (∀ b ∈ l₁, b.size < a.size) ∧
      selectAsset platform assets = some a := by
  obtain ⟨l₁, a, l₂, hsplit, hmax, hfirst, hhead⟩ := sortBySizeDesc_head assets hne
  refine ⟨l₁, a, l₂, hsplit, hmax, hfirst, ?_⟩
  have hfind : assets.find? (assetMatchesPlatform (platformExtensions platform)) = none :=
    List.find?_eq_none.mpr (by intro x hx; simp [hnone x hx])
  unfold selectAsset selectPlatformAsset
  rw [hfind]
  exact hhead

/-- C6 witness: the spec's example, two `.bin` assets on windows; the
larger, `data-full.bin`, is selected. -/
theorem selectAsset_largest_witness :
    ∃ l₁ a l₂,
      [(⟨"data.bin", "u1", "", 1000000⟩ : GitHubReleaseAsset),
       ⟨"data-full.bin", "u2", "", 9000000⟩] = l₁ ++ a :: l₂ ∧
      (∀ b ∈ [(⟨"data.bin", "u1", "", 1000000⟩ : GitHubReleaseAsset),
              ⟨"data-full.bin", "u2", "", 9000000⟩], b.size ≤ a.size) ∧
      (∀ b ∈ l₁, b.size < a.size) ∧
      selectAsset "windows"
        [⟨"data.bin", "u1", "", 1000000⟩, ⟨"data-full.bin", "u2", "", 9000000⟩] = some a :=
  selectAsset_largest "windows"
    [⟨"data.bin", "u1", "", 1000000⟩, ⟨"data-full.bin", "u2", "", 9000000⟩]
    (by decide) (by decide)

/-- C4: an asset is excluded from candidacy exactly when its lower-cased
name contains `source`, `src`, or `sourcecode` as a substring; when the
exclusion leaves zero candidates the download step fails without
selecting any asset, and a deployment hitting this on its first release
is reported `failed`. -/
theorem asset_source_exclusion :
    (∀ (assets : List GitHubReleaseAsset) (a : GitHubReleaseAsset), a ∈ assets →
      (a ∉ filterExecutableAssets assets ↔
        ("source".data <:+: lowerChars a.name ∨
         "src".data <:+: lowerChars a.name ∨
         "sourcecode".data <:+: lowerChars a.name))) ∧
    (∀ (env : Env) (release : ReleaseResponse) (tag : String) (st : List (String × Nat))
       (owner repo : String) (gh : GitHubReleaseResponse),
      release.download_url ≠ "" → tag ≠ "" →
      parseGitHubUrl release.download_url = some (owner, repo) →
      env.ghApi owner repo tag = GhResult.ok (some gh) →
      gh.assets ≠ [] →
      filterExecutableAssets gh.assets = [] →
      DownloadReleaseArtifacts env release tag st = ⟨none, st, [(owner, repo, tag)]⟩) ∧
    (∀ (env : Env) (dep : DeploymentResponse) (st : List (String × Nat))
       (rid : String) (rest : List String) (release : ReleaseResponse)
       (owner repo : String) (gh : GitHubReleaseResponse),
      dep.release_ids = some (rid :: rest) →
      dep.release_tags = none →
      env.fetchRelease rid = some release →
      release.download_url ≠ "" → release.tag_name ≠ "" →
      parseGitHubUrl release.download_url = some (owner, repo) →
      env.ghApi owner repo release.tag_name = GhResult.ok (some gh) →
      gh.assets ≠ [] →
      filterExecutableAssets gh.assets = [] →
      ExecuteDeployment env dep st =
        ⟨[("failed", "Failed to download artifacts for " ++ rid)], st⟩) := by
  have hB : ∀ (env : Env) (release : ReleaseResponse) (tag : String) (st : List (String × Nat))
      (owner repo : String) (gh : GitHubReleaseResponse),
      release.download_url ≠ "" → tag ≠ "" →
      parseGitHubUrl release.download_url = some (owner, repo) →
      env.ghApi owner repo tag = GhResult.ok (some gh) →
      gh.assets ≠ [] →
      filterExecutableAssets gh.assets = [] →
      DownloadReleaseArtifacts env release tag st = ⟨none, st, [(owner, repo, tag)]⟩ := by
    intro env release tag st owner repo gh hurl htag hparse hgh hne hfilter
    have hne' : gh.assets.isEmpty = false := by
      cases hgs : gh.assets with
      | nil => exact absurd hgs hne
      | cons x xs => rfl
    simp only [DownloadReleaseArtifacts, if_neg hurl, if_neg htag, hparse, hgh, hne',
      hfilter, Bool.false_eq_true, if_false, List.isEmpty_nil, if_true]
  refine ⟨?_, hB, ?_⟩
  · intro assets a ha
    rw [show filterExecutableAssets assets = assets.filter isExecutableAsset from rfl]
    rw [List.mem_filter]
    unfold isExecutableAsset
    simp only [ha, true_and, Bool.not_eq_true', Bool.not_eq_false, List.any_eq_true,
      not_not]
    constructor
    · rintro ⟨kw, hkw, hc⟩
      have hinf := (containsSub_iff _ _).mp hc
      have hkw' : kw = "source" ∨ kw = "src" ∨ kw = "sourcecode" := by
        simpa [sourceCodeKeywords] using hkw
      rcases hkw' with rfl | rfl | rfl
      · exact Or.inl hinf
      · exact Or.inr (Or.inl hinf)
      · exact Or.inr (Or.inr hinf)
    · rintro (h | h | h)
      · exact ⟨"source", by simp [sourceCodeKeywords], (containsSub_iff _ _).mpr h⟩
      · exact ⟨"src", by simp [sourceCodeKeywords], (containsSub_iff _ _).mpr h⟩
      · exact ⟨"sourcecode", by simp [sourceCodeKeywords], (containsSub_iff _ _).mpr h⟩
  · intro env dep st rid rest release owner repo gh hids htags hfetch hurl htag hparse hgh hne
      hfilter
    have hdl := hB env release release.tag_name st owner repo gh hurl htag hparse hgh hne hfilter
    have hpr : processRelease env st rid none =
        ⟨some ("Failed to download artifacts for " ++ rid), st,
         [(owner, repo, release.tag_name)]⟩ := by
      simp only [processRelease, hfetch]
      rw [show tagToUse none release.tag_name = release.tag_name from rfl, hdl]
    obtain ⟨ps, hps⟩ : ∃ ps, releasePairs (rid :: rest) none = (rid, none) :: ps := ⟨_, rfl⟩
    simp only [ExecuteDeployment, hids, htags, hps, runReleases, hpr]

/-- C4 witness: `app-src.zip` is excluded as a source archive, and a
deployment whose only release offers only that asset is reported failed. -/
theorem asset_source_exclusion_witness :
    ((⟨"app-src.zip", "u", "", 7⟩ : GitHubReleaseAsset) ∉
        filterExecutableAssets [⟨"app-src.zip", "u", "", 7⟩] ↔
      ("source".data <:+: lowerChars "app-src.zip" ∨
       "src".data <:+: lowerChars "app-src.zip" ∨
       "sourcecode".data <:+: lowerChars "app-src.zip")) ∧
    ExecuteDeployment srcOnlyEnv ⟨"d1", some ["r1"], none⟩ [] =
      ⟨[("failed", "Failed to download artifacts for " ++ "r1")], []⟩ :=
  ⟨asset_source_exclusion.1 [⟨"app-src.zip", "u", "", 7⟩] ⟨"app-src.zip", "u", "", 7⟩
     (by decide),
   asset_source_exclusion.2.2 srcOnlyEnv ⟨"d1", some ["r1"], none⟩ [] "r1" [] sampleRelease
     "acme" "app" ⟨"v1", "App", [⟨"app-src.zip", "u", "", 7⟩]⟩ rfl rfl (by decide) (by decide)
     (by decide) (by decide) (by decide) (by decide) (by decide)⟩

/-- Every query `DownloadReleaseArtifacts` issues to the artifact host
carries the owner and repo parsed from the release's `download_url` and
exactly the tag the function was handed. -/
theorem DownloadReleaseArtifacts_queries (env : Env) (release : ReleaseResponse)
    (tag : String) (st : List (String × Nat)) :
    ∀ q ∈ (DownloadReleaseArtifacts env release tag st).ghQueries,
      ∃ owner repo, parseGitHubUrl release.download_url = some (owner, repo) ∧
        q = (owner, repo, tag) := by
  intro q hq
  simp only [DownloadReleaseArtifacts] at hq
  split at hq
  · simp at hq
  · split at hq
    · simp at hq
    · split at hq
      · simp at hq
      · next owner repo hparse =>
        refine ⟨owner, repo, hparse, ?_⟩
        split at hq
        · simpa using hq
        · simpa using hq
        · split at hq
          · simpa using hq
          · split at hq
            · simpa using hq
            · split at hq
              · simpa using hq
              · split at hq
                · simpa using hq
                · simpa using hq

/-- `processRelease` forwards to the artifact host exactly the queries of
the download step for the tag chosen by `tagToUse`. -/
theorem processRelease_queries (env : Env) (st : List (String × Nat))
    (rid : String) (stag : Option String) (release : ReleaseResponse)
    (hfetch : env.fetchRelease rid = some release) :
    (processRelease env st rid stag).ghQueries =
      (DownloadReleaseArtifacts env release (tagToUse stag release.tag_name) st).ghQueries := by
  simp only [processRelease, hfetch]
  split
  · rfl
  · split
    · rfl
    · split
      · rfl
      · rfl

/-- C7: the i-th release of a deployment is processed with the
deployment's per-release selected tag when supplied and non-empty, and
with the release's stored `tag_name` otherwise; every artifact-host
query carries exactly that tag, and a non-success host response fails
the release. -/
theorem release_tag_resolution (env : Env) (st : List (String × Nat))
    (ids : List String) (tags : Option (List String)) (i : Nat)
    (rid : String) (stag : Option String) (release : ReleaseResponse)
    (hpair : (releasePairs ids tags).get? i = some (rid, stag))
    (hfetch : env.fetchRelease rid = some release) :
    ids.get? i = some rid ∧
    stag = (tags.bind fun ts => ts.get? i) ∧
    (∀ q ∈ (processRelease env st rid stag).ghQueries,
      q.2.2 = tagToUse stag release.tag_name) ∧
    ((stag = none ∨ stag = some "") → tagToUse stag release.tag_name = release.tag_name) ∧
    (∀ t, stag = some t → t ≠ "" → tagToUse stag release.tag_name = t) ∧
    (∀ owner repo, parseGitHubUrl release.download_url = some (owner, repo) →
      release.download_url ≠ "" → tagToUse stag release.tag_name ≠ "" →
      env.ghApi owner repo (tagToUse stag release.tag_name) = GhResult.httpError →
      (processRelease env st rid stag).error =
        some ("Failed to download artifacts for " ++ rid) ∧
      (processRelease env st rid stag).staging = st) := by
  have hpair' : ids.get? i = some rid ∧
      stag = (tags.bind fun ts => ts.get? i) := by
    rw [releasePairs, List.get?_map, List.get?_enum] at hpair
    cases hid : ids.get? i with
    | none => rw [hid] at hpair; simp at hpair
    | some x =>
      rw [hid] at hpair
      simp only [Option.map, Option.some.injEq, Prod.mk.injEq] at hpair
      obtain ⟨hx, hs⟩ := hpair
      subst hx
      refine ⟨rfl, ?_⟩
      rw [← hs]
      cases tags <;> rfl
  refine ⟨hpair'.1, hpair'.2, ?_, ?_, ?_, ?_⟩
  · intro q hq
    rw [processRelease_queries env st rid stag release hfetch] at hq
    obtain ⟨o, r, hp, rfl⟩ := DownloadReleaseArtifacts_queries env release _ st q hq
    rfl
  · rintro (rfl | rfl)
    · rfl
    · rfl
  · intro t ht hne
    subst ht
    simp [tagToUse, hne]
  · intro owner repo hparse hurl htag hgh
    have hdl : DownloadReleaseArtifacts env release (tagToUse stag release.tag_name) st =
        ⟨none, st, [(owner, repo, tagToUse stag release.tag_name)]⟩ := by
      simp only [DownloadReleaseArtifacts, if_neg hurl, if_neg htag, hparse, hgh]
    simp [processRelease, hfetch, hdl]

/-- C7 witness: with a per-deployment selected tag `v2`, the single query
made for the first release carries `v2`, and the host's non-success
answer fails the release. -/
theorem release_tag_resolution_witness :
    ["r1"].get? 0 = some "r1" ∧
    (some "v2" : Option String) = ((some ["v2"] : Option (List String)).bind fun ts => ts.get? 0) ∧
    (∀ q ∈ (processRelease httpErrEnv [] "r1" (some "v2")).ghQueries,
      q.2.2 = tagToUse (some "v2") sampleRelease.tag_name) ∧
    (((some "v2" : Option String) = none ∨ (some "v2" : Option String) = some "") →
      tagToUse (some "v2") sampleRelease.tag_name = sampleRelease.tag_name) ∧
    (∀ t, (some "v2" : Option String) = some t → t ≠ "" →
      tagToUse (some "v2") sampleRelease.tag_name = t) ∧
    (∀ owner repo,
      parseGitHubUrl sampleRelease.download_url = some (owner, repo) →
      sampleRelease.download_url ≠ "" → tagToUse (some "v2") sampleRelease.tag_name ≠ "" →
      httpErrEnv.ghApi owner repo (tagToUse (some "v2") sampleRelease.tag_name) =
        GhResult.httpError →
      (processRelease httpErrEnv [] "r1" (some "v2")).error =
        some ("Failed to download artifacts for " ++ "r1") ∧
      (processRelease httpErrEnv [] "r1" (some "v2")).staging = []) :=
  release_tag_resolution httpErrEnv [] ["r1"] (some ["v2"]) 0 "r1" (some "v2") sampleRelease
    (by decide) (by decide)

/-- `updateStaging` never removes a file name from the staging directory. -/
theorem updateStaging_names (st : List (String × Nat)) (name : String) (sz : Nat) :
    ∀ n, n ∈ stagingNames st → n ∈ stagingNames (updateStaging st name sz) := by
  intro n hn
  unfold updateStaging
  split
  · have hmapnames :
        stagingNames (st.map fun e => if e.1 = name then (name, sz) else e) =
          stagingNames st := by
      simp only [stagingNames, List.map_map]
      apply List.map_congr_left
      intro a _
      by_cases h : a.1 = name
      · simp [h]
      · simp [h]
    rw [hmapnames]
    exact hn
  · simp only [stagingNames, List.map_append, List.mem_append]
    exact Or.inl hn

/-- `DownloadReleaseArtifacts` never removes a file from staging. -/
theorem DownloadReleaseArtifacts_staging_mono (env : Env) (release : ReleaseResponse)
    (tag : String) (st : List (String × Nat)) :
    ∀ n, n ∈ stagingNames st →
      n ∈ stagingNames (DownloadReleaseArtifacts env release tag st).staging := by
  intro n hn
  simp only [DownloadReleaseArtifacts]
  repeat' split
  all_goals first
    | exact hn
    | exact updateStaging_names st _ _ n hn

/-- Processing one release never removes a file from staging. -/
theorem processRelease_staging_mono (env : Env) (st : List (String × Nat))
    (rid : String) (stag : Option String) :
    ∀ n, n ∈ stagingNames st →
      n ∈ stagingNames (processRelease env st rid stag).staging := by
  intro n hn
  simp only [processRelease]
  repeat' split
  all_goals first
    | exact hn
    | exact DownloadReleaseArtifacts_staging_mono env _ _ st n hn

/-- The release loop never removes a file from staging. -/
theorem runReleases_staging_mono (env : Env) :
    ∀ (ps : List (String × Option String)) (st : List (String × Nat)) (n : String),
      n ∈ stagingNames st → n ∈ stagingNames (runReleases env ps st).2 := by
  intro ps
  induction ps with
  | nil => intro st n hn; exact hn
  | cons p rest ih =>
    intro st n hn
    obtain ⟨rid, stag⟩ := p
    simp only [runReleases]
    split
    · exact processRelease_staging_mono env st rid stag n hn
    · exact ih _ n (processRelease_staging_mono env st rid stag n hn)

/-- The release loop either succeeds on all pairs, or there is a first
failing index `k`: the prefix before `k` succeeds, pair `k` fails with
message `msg`, and the loop stops there, returning `msg` and the staging
state left by the failing release. -/
theorem runReleases_cases (env : Env) :
    ∀ (ps : List (String × Option String)) (st : List (String × Nat)),
      (runReleases env ps st).1 = none ∨
      (∃ k rid stag msg st1,
        ps.get? k = some (rid, stag) ∧
        runReleases env (ps.take k) st = (none, st1) ∧
        (processRelease env st1 rid stag).error = some msg ∧
        runReleases env ps st = (some msg, (processRelease env st1 rid stag).staging)) := by
  intro ps
  induction ps with
  | nil => intro st; exact Or.inl rfl
  | cons p rest ih =>
    intro st
    obtain ⟨rid, stag⟩ := p
    cases herr : (processRelease env st rid stag).error with
    | some msg =>
      refine Or.inr ⟨0, rid, stag, msg, st, rfl, rfl, herr, ?_⟩
      simp only [runReleases, herr]
    | none =>
      rcases ih ((processRelease env st rid stag).staging) with h |
        ⟨k, rid', stag', msg, st1, hget, htake, herr', heq⟩
      · left
        simp only [runReleases, herr]
        exact h
      · right
        refine ⟨k + 1, rid', stag', msg, st1, hget, ?_, herr', ?_⟩
        · simp only [List.take_succ_cons, runReleases, herr]
          exact htake
        · simp only [runReleases, herr]
          exact heq

/-- C1: for a deployment with a non-empty release list, exactly one
completion report is sent and nothing is ever removed from the staging
directory; either every release succeeds and the single report is
`success` with an empty error message, or there is a first failing
release: all earlier releases completed, the failing release's error
message is the one reported with status `failed`, and no release after
the failing one is processed (the final staging is exactly the state the
failing release left behind). -/
theorem ExecuteDeployment_fail_fast (env : Env) (dep : DeploymentResponse)
    (st : List (String × Nat)) (ids : List String)
    (hids : dep.release_ids = some ids) (hne : ids ≠ []) :
    (∀ n, n ∈ stagingNames st → n ∈ stagingNames (ExecuteDeployment env dep st).staging) ∧
    ((∃ stf, runReleases env (releasePairs ids dep.release_tags) st = (none, stf) ∧
        ExecuteDeployment env dep st = ⟨[("success", "")], stf⟩) ∨
     (∃ k rid stag msg st1,
        (releasePairs ids dep.release_tags).get? k = some (rid, stag) ∧
        runReleases env ((releasePairs ids dep.release_tags).take k) st = (none, st1) ∧
        (processRelease env st1 rid stag).error = some msg ∧
        ExecuteDeployment env dep st =
          ⟨[("failed", msg)], (processRelease env st1 rid stag).staging⟩)) := by
  have hexec : ExecuteDeployment env dep st =
      (match runReleases env (releasePairs ids dep.release_tags) st with
       | (some msg, stf) => ⟨[("failed", msg)], stf⟩
       | (none, stf) => ⟨[("success", "")], stf⟩) := by
    cases ids with
    | nil => exact absurd rfl hne
    | cons a as => simp only [ExecuteDeployment, hids]
  have hstaging : (ExecuteDeployment env dep st).staging =
      (runReleases env (releasePairs ids dep.release_tags) st).2 := by
    rw [hexec]
    cases hr : runReleases env (releasePairs ids dep.release_tags) st with
    | mk e stf => cases e <;> rfl
  constructor
  · intro n hn
    rw [hstaging]
    exact runReleases_staging_mono env _ st n hn
  · rcases runReleases_cases env (releasePairs ids dep.release_tags) st with h |
      ⟨k, rid, stag, msg, st1, hget, htake, herr, heq⟩
    · left
      cases hr : runReleases env (releasePairs ids dep.release_tags) st with
      | mk e stf =>
        rw [hr] at h
        cases h
        refine ⟨stf, rfl, ?_⟩
        rw [hexec, hr]
    · right
      refine ⟨k, rid, stag, msg, st1, hget, htake, herr, ?_⟩
      rw [hexec, heq]

/-- C1 witness: a one-release deployment that succeeds end to end yields
the single report `("success", "")` and keeps the staged artifact. -/
theorem ExecuteDeployment_fail_fast_witness :
    (∀ n, n ∈ stagingNames [("old.zip", 3)] →
      n ∈ stagingNames
        (ExecuteDeployment sampleEnv ⟨"d1", some ["r1"], none⟩ [("old.zip", 3)]).staging) ∧
    ((∃ stf,
        runReleases sampleEnv (releasePairs ["r1"] none) [("old.zip", 3)] = (none, stf) ∧
        ExecuteDeployment sampleEnv ⟨"d1", some ["r1"], none⟩ [("old.zip", 3)] =
          ⟨[("success", "")], stf⟩) ∨
     (∃ k rid stag msg st1,
        (releasePairs ["r1"] none).get? k = some (rid, stag) ∧
        runReleases sampleEnv ((releasePairs ["r1"] none).take k) [("old.zip", 3)] =
          (none, st1) ∧
        (processRelease sampleEnv st1 rid stag).error = some msg ∧
        ExecuteDeployment sampleEnv ⟨"d1", some ["r1"], none⟩ [("old.zip", 3)] =
          ⟨[("failed", msg)], (processRelease sampleEnv st1 rid stag).staging⟩)) :=
  ExecuteDeployment_fail_fast sampleEnv ⟨"d1", some ["r1"], none⟩ [("old.zip", 3)] ["r1"]
    rfl (by decide)

/-- A successful anchored match decomposes its input: the host literal,
a non-empty slash-free owner, a slash, and a non-slash character. -/
theorem matchGithubAt_some_decomp (cs : List Char) (o r : String)
    (h : matchGithubAt cs = some (o, r)) :
    ∃ owner c rest, cs = githubHost ++ (owner ++ '/' :: c :: rest) ∧
      owner ≠ [] ∧ '/' ∉ owner ∧ c ≠ '/' := by
  simp only [matchGithubAt] at h
  split at h
  case isFalse => exact absurd h (by simp)
  case isTrue hp =>
    obtain ⟨suf, hsuf⟩ := List.isPrefixOf_iff_prefix.mp hp
    have hcs : cs = githubHost ++ suf := hsuf.symm
    subst hcs
    simp only [List.drop_left] at h
    split at h
    case isTrue => exact absurd h (by simp)
    case isFalse howner =>
      rw [drop_takeWhile_length] at h
      have howner' : suf.takeWhile (fun c => c ≠ '/') ≠ [] := by
        intro hx
        rw [hx] at howner
        exact howner rfl
      have hmemo : '/' ∉ suf.takeWhile (fun c => c ≠ '/') := by
        intro hx
        have := List.mem_takeWhile_imp hx
        simp at this
      cases hdw : suf.dropWhile (fun c => c ≠ '/') with
      | nil => rw [hdw] at h; exact absurd h (by simp)
      | cons d rest2 =>
        rw [hdw] at h
        have hd : d = '/' := by
          have := List.head_dropWhile_not (fun c => (c ≠ '/' : Bool)) (l := suf)
          rw [hdw] at this
          simpa using this (by simp)
        subst hd
        have h' : (if (rest2.takeWhile (fun c => decide (c ≠ '/'))).isEmpty = true then none
            else some ((suf.takeWhile (fun c => decide (c ≠ '/'))).asString,
                       (rest2.takeWhile (fun c => decide (c ≠ '/'))).asString)) =
            some (o, r) := h
        clear h
        rename' h' => h
        split at h
        case isTrue => exact absurd h (by simp)
        case isFalse hrepo =>
          cases hr2 : rest2 with
          | nil =>
            rw [hr2] at hrepo
            exact absurd rfl hrepo
          | cons c rest3 =>
            have hc : c ≠ '/' := by
              intro hcc
              rw [hr2] at hrepo
              apply hrepo
              simp [List.takeWhile, hcc]
            refine ⟨suf.takeWhile (fun c => c ≠ '/'), c, rest3, ?_, howner', hmemo, hc⟩
            have hsufsplit : suf = suf.takeWhile (fun c => c ≠ '/') ++ ('/' :: c :: rest3) := by
              conv_lhs => rw [← List.takeWhile_append_dropWhile
                (fun c => decide (c ≠ '/')) suf]
              rw [hdw, hr2]
            rw [← hsufsplit]

/-- Conversely, an input of that shape is matched. -/
theorem matchGithubAt_isSome_of_shape (owner : List Char) (c : Char) (rest : List Char)
    (hne : owner ≠ []) (hns : '/' ∉ owner) (hc : c ≠ '/') :
    (matchGithubAt (githubHost ++ (owner ++ '/' :: c :: rest))).isSome = true := by
  have hall : ∀ x ∈ owner, (fun c => decide (c ≠ '/')) x = true := by
    intro x hx
    simp only [decide_eq_true_eq]
    intro hxx
    exact hns (hxx ▸ hx)
  have hsplit := takeWhile_dropWhile_split (fun c => decide (c ≠ '/')) owner '/'
    (c :: rest) hall (by simp)
  simp only [matchGithubAt]
  rw [if_pos (List.isPrefixOf_iff_prefix.mpr ⟨owner ++ '/' :: c :: rest, rfl⟩)]
  simp only [List.drop_left]
  rw [drop_takeWhile_length, hsplit.1, hsplit.2]
  rw [if_neg (by simpa using hne)]
  simp [List.takeWhile, hc]

/-- The regex search succeeds exactly when some split of the input has a
match at its right part. -/
theorem searchGithub_isSome_iff :
    ∀ l : List Char, (searchGithub l).isSome = true ↔
      ∃ pre suf, l = pre ++ suf ∧ (matchGithubAt suf).isSome = true := by
  intro l
  induction l with
  | nil =>
    constructor
    · intro h; simp [searchGithub] at h
    · rintro ⟨pre, suf, heq, hm⟩
      have hsuf : suf = [] := by
        cases pre <;> simp_all
      subst hsuf
      simp [matchGithubAt, githubHost] at hm
  | cons a as ih =>
    constructor
    · intro h
      rw [searchGithub] at h
      cases hm : matchGithubAt (a :: as) with
      | some x => exact ⟨[], a :: as, rfl, by simp [hm]⟩
      | none =>
        rw [hm] at h
        obtain ⟨pre, suf, heq, hmm⟩ := ih.mp h
        exact ⟨a :: pre, suf, by rw [List.cons_append, heq], hmm⟩
    · rintro ⟨pre, suf, heq, hm⟩
      rw [searchGithub]
      cases hmo : matchGithubAt (a :: as) with
      | some x => simp
      | none =>
        cases pre with
        | nil =>
          simp only [List.nil_append] at heq
          rw [← heq] at hm
          rw [hmo] at hm
          simp at hm
        | cons b pre' =>
          rw [List.cons_append] at heq
          injection heq with h1 h2
          exact ih.mpr ⟨pre', suf, h2, hm⟩

/-- C8 counterexample: `https://github.com/a/b/c` has an extra path
segment, so after trimming it does not have the exact `host/owner/repo`
shape the claim requires, yet the code's parse succeeds and yields
`("a", "b")`. -/
theorem parseGitHubUrl_shape_counterexample :
    parseGitHubUrl "https://github.com/a/b/c" = some ("a", "b") ∧
    ¬ specShapeGithubUrl "https://github.com/a/b/c" := by
  constructor
  · decide
  · rintro ⟨owner, repo, hown, hrep, hno, hnr, heq⟩
    have hcount : List.count '/' (trimTrailingSlashes "https://github.com/a/b/c").data = 5 := by
      decide
    rw [heq, List.count_append, List.count_append, List.count_cons] at hcount
    have h1 : List.count '/' githubHost = 3 := by decide
    have h2 : List.count '/' owner = 0 := List.count_eq_zero.mpr hno
    have h3 : List.count '/' repo = 0 := List.count_eq_zero.mpr hnr
    rw [h1, h2, h3] at hcount
    simp at hcount

/-- C8 amended: parsing succeeds exactly when, after trimming trailing
slashes, the URL contains an occurrence of the GitHub host literal
followed by a non-empty slash-free owner segment, a slash, and at least
one further non-slash character (so the exact `host/owner/repo` shape,
with or without a trailing slash, is accepted, but so are URLs with
extra path segments or surrounding text); whenever the parse rejects a
URL, the release fails with the download-failure error before any host
query or download is attempted. -/
theorem parseGitHubUrl_characterization (url : String) :
    ((parseGitHubUrl url).isSome = true ↔
      ∃ pre owner c rest, (trimTrailingSlashes url).data =
          pre ++ (githubHost ++ (owner ++ '/' :: c :: rest)) ∧
        owner ≠ [] ∧ '/' ∉ owner ∧ c ≠ '/') ∧
    (parseGitHubUrl url = none →
      ∀ (env : Env) (st : List (String × Nat)) (rid : String) (stag : Option String)
        (release : ReleaseResponse),
        env.fetchRelease rid = some release → release.download_url = url →
        (processRelease env st rid stag).error =
          some ("Failed to download artifacts for " ++ rid) ∧
        (processRelease env st rid stag).staging = st ∧
        (processRelease env st rid stag).ghQueries = []) := by
  constructor
  · rw [show parseGitHubUrl url = searchGithub (trimTrailingSlashes url).data from rfl]
    rw [searchGithub_isSome_iff]
    constructor
    · rintro ⟨pre, suf, heq, hm⟩
      obtain ⟨x, hx⟩ := Option.isSome_iff_exists.mp hm
      obtain ⟨o, r⟩ := x
      obtain ⟨owner, c, rest, hsuf, hne, hns, hc⟩ := matchGithubAt_some_decomp suf o r hx
      exact ⟨pre, owner, c, rest, by rw [heq, hsuf], hne, hns, hc⟩
    · rintro ⟨pre, owner, c, rest, heq, hne, hns, hc⟩
      refine ⟨pre, githubHost ++ (owner ++ '/' :: c :: rest), ?_, ?_⟩
      · rw [heq]
      · exact matchGithubAt_isSome_of_shape owner c rest hne hns hc
  · intro hnone env st rid stag release hfetch hurl
    have hdl : ∀ tag, DownloadReleaseArtifacts env release tag st = ⟨none, st, []⟩ := by
      intro tag
      unfold DownloadReleaseArtifacts
      split
      · rfl
      · split
        · rfl
        · rw [hurl, hnone]
    simp [processRelease, hfetch, hdl]

/-- C8 witness: a URL with surrounding shape is accepted via the
characterization, and a URL without any host occurrence makes the
release fail with staging untouched and no host query. -/
theorem parseGitHubUrl_characterization_witness :
    (parseGitHubUrl "https://github.com/ab/cd/").isSome = true ∧
    ((processRelease
        ⟨"macos", fun _ => some ⟨"r1", "v1", "n", "1", "nota url", ""⟩,
         fun _ _ _ => GhResult.httpError, fun _ => true, fun _ => 1⟩
        [] "r1" none).error = some ("Failed to download artifacts for " ++ "r1") ∧
     (processRelease
        ⟨"macos", fun _ => some ⟨"r1", "v1", "n", "1", "nota url", ""⟩,
         fun _ _ _ => GhResult.httpError, fun _ => true, fun _ => 1⟩
        [] "r1" none).staging = [] ∧
     (processRelease
        ⟨"macos", fun _ => some ⟨"r1", "v1", "n", "1", "nota url", ""⟩,
         fun _ _ _ => GhResult.httpError, fun _ => true, fun _ => 1⟩
        [] "r1" none).ghQueries = []) :=
  ⟨(parseGitHubUrl_characterization "https://github.com/ab/cd/").1.mpr
     ⟨[], ['a', 'b'], 'c', ['d'], by decide, by decide, by decide, by decide⟩,
   (parseGitHubUrl_characterization "nota url").2 (by decide)
     ⟨"macos", fun _ => some ⟨"r1", "v1", "n", "1", "nota url", ""⟩,
      fun _ _ _ => GhResult.httpError, fun _ => true, fun _ => 1⟩
     [] "r1" none ⟨"r1", "v1", "n", "1", "nota url", ""⟩ rfl rfl⟩

end VoidGate
